import Mathlib

/-!
# Verification of `src/port/platform/nordic/nrf53/cfg/u_cfg_app_platform_specific.h`

The source file is a C header consisting of an include guard, one
`include` directive, and comments.  After comment removal (translation
phase 3 of the C standard) the directive stream of the file is exactly

  `ifndef _U_CFG_APP_PLATFORM_SPECIFIC_H_`
  `define _U_CFG_APP_PLATFORM_SPECIFIC_H_`
  `include "u_runner.h"`
  `endif`

We give a shallow embedding of the fragment of the C preprocessor that
these four directive kinds exercise: a state of defined macro names, a
conditional-skipping mode, textual emission, and `include` resolution
through an abstract include-path environment
`fs : String → Option (List Directive)`.  Include nesting is bounded by
an explicit fuel parameter; a genuine preprocessor run of a terminating
translation unit is the value obtained for every sufficiently large
fuel.
-/

set_option autoImplicit false

/-- One preprocessing directive (or a run of ordinary text).  These are
exactly the directive kinds occurring in the source file; `textD` stands
for any non-directive line that the preprocessor would copy to its
output. -/
inductive Directive : Type
  | textD (s : String)
  | defineD (m : String)
  | ifndefD (m : String)
  | endifD
  | includeD (f : String)
  deriving DecidableEq, Repr

/-- The ways preprocessing of a translation unit can fail. -/
inductive PPError : Type
  | missingInclude (f : String)
  | includeDepthExceeded
  | unterminatedConditional
  deriving DecidableEq, Repr

/-- Process the directives of one file.  `inc` is the callback used to
resolve and process an `include` directive, `skip` is the nesting depth
of conditional groups currently being skipped (`0` means active mode).
Returns the emitted text lines and the final list of defined macro
names. -/
def ppList (inc : String → List String → Except PPError (List String × List String)) :
    Nat → List String → List Directive → Except PPError (List String × List String)
  | 0, defs, [] => Except.ok ([], defs)
  | _+1, _, [] => Except.error PPError.unterminatedConditional
  | s+1, defs, Directive.ifndefD _ :: rest => ppList inc (s+2) defs rest
  | s+1, defs, Directive.endifD :: rest => ppList inc s defs rest
  | s+1, defs, Directive.textD _ :: rest => ppList inc (s+1) defs rest
  | s+1, defs, Directive.defineD _ :: rest => ppList inc (s+1) defs rest
  | s+1, defs, Directive.includeD _ :: rest => ppList inc (s+1) defs rest
  | 0, defs, Directive.textD str :: rest =>
      match ppList inc 0 defs rest with
      | Except.ok (out, defs') => Except.ok (str :: out, defs')
      | Except.error e => Except.error e
  | 0, defs, Directive.defineD m :: rest => ppList inc 0 (m :: defs) rest
  | 0, defs, Directive.ifndefD m :: rest =>
      if m ∈ defs then ppList inc 1 defs rest else ppList inc 0 defs rest
  | 0, defs, Directive.endifD :: rest => ppList inc 0 defs rest
  | 0, defs, Directive.includeD f :: rest =>
      match inc f defs with
      | Except.error e => Except.error e
      | Except.ok (out₁, defs₁) =>
        match ppList inc 0 defs₁ rest with
        | Except.error e => Except.error e
        | Except.ok (out₂, defs₂) => Except.ok (out₁ ++ out₂, defs₂)

/-- Preprocess a directive list in the include-path environment `fs`,
allowing at most `fuel` levels of nested `include` resolution.  Each
included file is processed from active mode (conditional groups cannot
span file boundaries). -/
def ppRun (fs : String → Option (List Directive)) :
    Nat → List String → List Directive → Except PPError (List String × List String)
  | 0, defs, l =>
      ppList (fun f _ =>
        match fs f with
        | none => Except.error (PPError.missingInclude f)
        | some _ => Except.error PPError.includeDepthExceeded) 0 defs l
  | fuel+1, defs, l =>
      ppList (fun f defs' =>
        match fs f with
        | none => Except.error (PPError.missingInclude f)
        | some content => ppRun fs fuel defs' content) 0 defs l

/-- The include-guard symbol of the header, line 17 of the source. -/
def guardSym : String := "_U_CFG_APP_PLATFORM_SPECIFIC_H_"

/-- The file name by which the header includes the runner header,
line 21 of the source. -/
def uRunnerName : String := "u_runner.h"

/-- The path under which the header itself is exposed on the include
path. -/
def hdrPath : String := "port/platform/nordic/nrf53/cfg/u_cfg_app_platform_specific.h"

/-- The directive stream of
`src/port/platform/nordic/nrf53/cfg/u_cfg_app_platform_specific.h`
after comment removal: the include guard around a single `include` of
`u_runner.h`.  The copyright banner, the `@file` documentation block and
the trailing `End of file` marker are comments and are removed before
directive processing, so they contribute no directives. -/
def uCfgAppPlatformSpecificH : List Directive :=
  [Directive.ifndefD guardSym,
   Directive.defineD guardSym,
   Directive.includeD uRunnerName,
   Directive.endifD]

/-- The text emitted for the body of `u_runner.h` in the modelled
environment. -/
def uRunnerText : String := "u_runner.h declarations"

/-- Modelled from the spec: the repository's `u_runner.h` is not among
the supplied sources; the spec says only that it is an includable header
whose contents the guard header must make available.  We model it as an
opaque emission of its declarations, defining no macros and including no
further files. -/
def uRunnerH : List Directive := [Directive.textD uRunnerText]

/-- The standard include-path environment: the header itself under its
repository path and the modelled `u_runner.h`. -/
def stdFs : String → Option (List Directive) := fun f =>
  if f = hdrPath then some uCfgAppPlatformSpecificH
  else if f = uRunnerName then some uRunnerH
  else none

/-- A hostile environment for the circular-inclusion claim: `u_runner.h`
includes the guard header right back before emitting its own text. -/
def uRunnerCircular : List Directive :=
  [Directive.includeD hdrPath, Directive.textD uRunnerText]

/-- Include-path environment in which `u_runner.h` re-includes the guard
header. -/
def fsCircular : String → Option (List Directive) := fun f =>
  if f = hdrPath then some uCfgAppPlatformSpecificH
  else if f = uRunnerName then some uRunnerCircular
  else none

/-- A translation unit that does nothing but include the guard header
`n` times in a row. -/
def tuIncludes (n : Nat) : List Directive :=
  List.replicate n (Directive.includeD hdrPath)

/-- The guard symbols tested by `ifndef` directives of a file. -/
def testedGuards (l : List Directive) : List String :=
  l.filterMap fun d =>
    match d with
    | Directive.ifndefD m => some m
    | _ => none

/-- The macro names defined by `define` directives of a file. -/
def definedSyms (l : List Directive) : List String :=
  l.filterMap fun d =>
    match d with
    | Directive.defineD m => some m
    | _ => none

/-- Whether a preprocessor result is a success. -/
def ppOk (r : Except PPError (List String × List String)) : Bool :=
  match r with
  | Except.ok _ => true
  | Except.error _ => false

/-! ## Basic stepping lemmas for `ppRun` -/

theorem ppRun_nil (fs : String → Option (List Directive)) (fuel : Nat)
    (defs : List String) : ppRun fs fuel defs [] = Except.ok ([], defs) := by
  cases fuel <;> rfl

theorem ppRun_cons_text (fs : String → Option (List Directive)) (fuel : Nat)
    (defs : List String) (s : String) (rest : List Directive) :
    ppRun fs fuel defs (Directive.textD s :: rest) =
      match ppRun fs fuel defs rest with
      | Except.ok (out, defs') => Except.ok (s :: out, defs')
      | Except.error e => Except.error e := by
  cases fuel <;> rfl

theorem ppRun_cons_define (fs : String → Option (List Directive)) (fuel : Nat)
    (defs : List String) (m : String) (rest : List Directive) :
    ppRun fs fuel defs (Directive.defineD m :: rest) =
      ppRun fs fuel (m :: defs) rest := by
  cases fuel <;> rfl

theorem ppRun_cons_endif (fs : String → Option (List Directive)) (fuel : Nat)
    (defs : List String) (rest : List Directive) :
    ppRun fs fuel defs (Directive.endifD :: rest) = ppRun fs fuel defs rest := by
  cases fuel <;> rfl

theorem ppRun_cons_ifndef_neg (fs : String → Option (List Directive)) (fuel : Nat)
    (defs : List String) (m : String) (rest : List Directive) (h : m ∉ defs) :
    ppRun fs fuel defs (Directive.ifndefD m :: rest) = ppRun fs fuel defs rest := by
  cases fuel <;> simp only [ppRun, ppList, if_neg h]

theorem ppRun_cons_include_missing (fs : String → Option (List Directive)) (fuel : Nat)
    (defs : List String) (nm : String) (rest : List Directive) (h : fs nm = none) :
    ppRun fs fuel defs (Directive.includeD nm :: rest) =
      Except.error (PPError.missingInclude nm) := by
  cases fuel <;> simp only [ppRun, ppList, h]

theorem ppRun_cons_include_fuel0 (fs : String → Option (List Directive))
    (defs : List String) (nm : String) (rest : List Directive)
    (c : List Directive) (h : fs nm = some c) :
    ppRun fs 0 defs (Directive.includeD nm :: rest) =
      Except.error PPError.includeDepthExceeded := by
  simp only [ppRun, ppList, h]

theorem ppRun_cons_include (fs : String → Option (List Directive)) (fuel : Nat)
    (defs : List String) (nm : String) (rest : List Directive)
    (c : List Directive) (h : fs nm = some c) :
    ppRun fs (fuel+1) defs (Directive.includeD nm :: rest) =
      match ppRun fs fuel defs c with
      | Except.error e => Except.error e
      | Except.ok (out₁, defs₁) =>
        match ppRun fs (fuel+1) defs₁ rest with
        | Except.error e => Except.error e
        | Except.ok (out₂, defs₂) => Except.ok (out₁ ++ out₂, defs₂) := by
  simp only [ppRun, ppList, h]

/-! ## Core lemmas about the guard header -/

theorem guarded_noop (fs : String → Option (List Directive)) (fuel : Nat)
    (defs : List String) (h : guardSym ∈ defs) :
    ppRun fs fuel defs uCfgAppPlatformSpecificH = Except.ok ([], defs) := by
  cases fuel <;>
    simp only [uCfgAppPlatformSpecificH, ppRun, ppList, if_pos h]

theorem fresh_missing (fs : String → Option (List Directive)) (fuel : Nat)
    (defs : List String) (hg : guardSym ∉ defs) (h : fs uRunnerName = none) :
    ppRun fs fuel defs uCfgAppPlatformSpecificH =
      Except.error (PPError.missingInclude uRunnerName) := by
  cases fuel <;>
    simp only [uCfgAppPlatformSpecificH, ppRun, ppList, if_neg hg, h]

theorem fresh_fuel0 (fs : String → Option (List Directive))
    (defs : List String) (r : List Directive)
    (hg : guardSym ∉ defs) (h : fs uRunnerName = some r) :
    ppRun fs 0 defs uCfgAppPlatformSpecificH =
      Except.error PPError.includeDepthExceeded := by
  simp only [uCfgAppPlatformSpecificH, ppRun, ppList, if_neg hg, h]

theorem ppRun_cons_include_ok (fs : String → Option (List Directive)) (fuel : Nat)
    (defs : List String) (nm : String) (rest : List Directive)
    (c : List Directive) (out₁ defs₁ out₂ defs₂ : List String)
    (h : fs nm = some c)
    (h₁ : ppRun fs fuel defs c = Except.ok (out₁, defs₁))
    (h₂ : ppRun fs (fuel+1) defs₁ rest = Except.ok (out₂, defs₂)) :
    ppRun fs (fuel+1) defs (Directive.includeD nm :: rest) =
      Except.ok (out₁ ++ out₂, defs₂) := by
  rw [ppRun_cons_include fs fuel defs nm rest c h]
  simp only [h₁, h₂]

theorem ppRun_cons_include_err (fs : String → Option (List Directive)) (fuel : Nat)
    (defs : List String) (nm : String) (rest : List Directive)
    (c : List Directive) (e : PPError)
    (h : fs nm = some c)
    (h₁ : ppRun fs fuel defs c = Except.error e) :
    ppRun fs (fuel+1) defs (Directive.includeD nm :: rest) = Except.error e := by
  rw [ppRun_cons_include fs fuel defs nm rest c h]
  simp only [h₁]

theorem fresh_ok (fs : String → Option (List Directive)) (fuel : Nat)
    (defs : List String) (r : List Directive) (outR defsR : List String)
    (hg : guardSym ∉ defs) (h : fs uRunnerName = some r)
    (hr : ppRun fs fuel (guardSym :: defs) r = Except.ok (outR, defsR)) :
    ppRun fs (fuel+1) defs uCfgAppPlatformSpecificH = Except.ok (outR, defsR) := by
  have h4 : ppRun fs (fuel+1) defsR [Directive.endifD] = Except.ok ([], defsR) := by
    rw [ppRun_cons_endif, ppRun_nil]
  have h3 := ppRun_cons_include_ok fs fuel (guardSym :: defs) uRunnerName
    [Directive.endifD] r outR defsR [] defsR h hr h4
  rw [uCfgAppPlatformSpecificH, ppRun_cons_ifndef_neg fs (fuel+1) defs guardSym _ hg,
    ppRun_cons_define, h3, List.append_nil]

theorem fresh_err (fs : String → Option (List Directive)) (fuel : Nat)
    (defs : List String) (r : List Directive) (e : PPError)
    (hg : guardSym ∉ defs) (h : fs uRunnerName = some r)
    (hr : ppRun fs fuel (guardSym :: defs) r = Except.error e) :
    ppRun fs (fuel+1) defs uCfgAppPlatformSpecificH = Except.error e := by
  have h3 := ppRun_cons_include_err fs fuel (guardSym :: defs) uRunnerName
    [Directive.endifD] r e h hr
  rw [uCfgAppPlatformSpecificH, ppRun_cons_ifndef_neg fs (fuel+1) defs guardSym _ hg,
    ppRun_cons_define, h3]


/-! ## Monotonicity: preprocessing never removes a defined macro -/

theorem ppList_mono
    (inc : String → List String → Except PPError (List String × List String))
    (H : ∀ nm d o d', inc nm d = Except.ok (o, d') → ∀ m, m ∈ d → m ∈ d') :
    ∀ (l : List Directive) (skip : Nat) (defs out defs' : List String),
      ppList inc skip defs l = Except.ok (out, defs') →
      ∀ m, m ∈ defs → m ∈ defs' := by
  intro l
  induction l with
  | nil =>
    intro skip defs out defs' h m hm
    cases skip with
    | zero =>
      simp only [ppList, Except.ok.injEq, Prod.mk.injEq] at h
      exact h.2 ▸ hm
    | succ s =>
      simp only [ppList] at h
      exact Except.noConfusion h
  | cons d rest ih =>
    intro skip defs out defs' h m hm
    cases skip with
    | succ s =>
      cases d with
      | textD s' => exact ih (s+1) defs out defs' h m hm
      | defineD m' => exact ih (s+1) defs out defs' h m hm
      | ifndefD m' => exact ih (s+2) defs out defs' h m hm
      | endifD => exact ih s defs out defs' h m hm
      | includeD nm => exact ih (s+1) defs out defs' h m hm
    | zero =>
      cases d with
      | textD s' =>
        simp only [ppList] at h
        cases hr : ppList inc 0 defs rest with
        | error e =>
          rw [hr] at h
          exact Except.noConfusion h
        | ok p =>
          obtain ⟨o, d'⟩ := p
          simp only [hr, Except.ok.injEq, Prod.mk.injEq] at h
          exact h.2 ▸ ih 0 defs o d' hr m hm
      | defineD m' =>
        simp only [ppList] at h
        exact ih 0 (m' :: defs) out defs' h m (List.mem_cons_of_mem m' hm)
      | ifndefD m' =>
        simp only [ppList] at h
        by_cases hc : m' ∈ defs
        · rw [if_pos hc] at h
          exact ih 1 defs out defs' h m hm
        · rw [if_neg hc] at h
          exact ih 0 defs out defs' h m hm
      | endifD =>
        simp only [ppList] at h
        exact ih 0 defs out defs' h m hm
      | includeD nm =>
        simp only [ppList] at h
        cases hi : inc nm defs with
        | error e =>
          rw [hi] at h
          exact Except.noConfusion h
        | ok p =>
          obtain ⟨o₁, d₁⟩ := p
          cases hr : ppList inc 0 d₁ rest with
          | error e =>
            simp only [hi, hr] at h
            exact Except.noConfusion h
          | ok q =>
            obtain ⟨o₂, d₂⟩ := q
            simp only [hi, hr, Except.ok.injEq, Prod.mk.injEq] at h
            exact h.2 ▸ ih 0 d₁ o₂ d₂ hr m (H nm defs o₁ d₁ hi m hm)

theorem ppRun_mono (fs : String → Option (List Directive)) :
    ∀ (fuel : Nat) (l : List Directive) (defs out defs' : List String),
      ppRun fs fuel defs l = Except.ok (out, defs') →
      ∀ m, m ∈ defs → m ∈ defs' := by
  intro fuel
  induction fuel with
  | zero =>
    intro l defs out defs' h m hm
    refine ppList_mono _ ?_ l 0 defs out defs' h m hm
    intro nm d o d' hok
    cases hf : fs nm <;> rw [hf] at hok <;> exact Except.noConfusion hok
  | succ f ih =>
    intro l defs out defs' h m hm
    refine ppList_mono _ ?_ l 0 defs out defs' h m hm
    intro nm d o d' hok mm hmm
    cases hf : fs nm with
    | none =>
      rw [hf] at hok
      exact Except.noConfusion hok
    | some c =>
      rw [hf] at hok
      exact ih c d o d' hok mm hmm

/-! ## Repeated inclusion -/

theorem skipAll (fs : String → Option (List Directive))
    (hfs : fs hdrPath = some uCfgAppPlatformSpecificH)
    (defs : List String) (hg : guardSym ∈ defs) :
    ∀ (n fuel : Nat),
      ppRun fs (fuel+1) defs (tuIncludes n) = Except.ok ([], defs) := by
  intro n
  induction n with
  | zero =>
    intro fuel
    rw [tuIncludes, List.replicate_zero, ppRun_nil]
  | succ k ih =>
    intro fuel
    rw [tuIncludes, List.replicate_succ]
    have h := ppRun_cons_include_ok fs fuel defs hdrPath
      (List.replicate k (Directive.includeD hdrPath)) uCfgAppPlatformSpecificH
      [] defs [] defs hfs (guarded_noop fs fuel defs hg) (ih fuel)
    rw [h]
    rfl

theorem run_ok_guard (fs : String → Option (List Directive)) (fuel : Nat)
    (defs out defs' : List String)
    (h : ppRun fs fuel defs uCfgAppPlatformSpecificH = Except.ok (out, defs')) :
    guardSym ∈ defs' := by
  by_cases hg : guardSym ∈ defs
  · exact ppRun_mono fs fuel uCfgAppPlatformSpecificH defs out defs' h guardSym hg
  · cases hur : fs uRunnerName with
    | none =>
      rw [fresh_missing fs fuel defs hg hur] at h
      exact Except.noConfusion h
    | some r =>
      cases fuel with
      | zero =>
        rw [fresh_fuel0 fs defs r hg hur] at h
        exact Except.noConfusion h
      | succ f =>
        cases hr : ppRun fs f (guardSym :: defs) r with
        | error e =>
          rw [fresh_err fs f defs r e hg hur hr] at h
          exact Except.noConfusion h
        | ok p =>
          obtain ⟨o, d⟩ := p
          rw [fresh_ok fs f defs r o d hg hur hr] at h
          simp only [Except.ok.injEq, Prod.mk.injEq] at h
          exact h.2 ▸ ppRun_mono fs f r (guardSym :: defs) o d hr guardSym
            (List.mem_cons_self guardSym defs)

/-! ## The claims -/

/-- C1.  Include-guard idempotence: in any include-path environment that
resolves the header's path to the header itself, if a translation unit
consisting of one inclusion of the header preprocesses to some output
and macro state, then the translation unit consisting of `n+1`
inclusions preprocesses to exactly the same output and macro state: the
content is emitted exactly once and every inclusion after the first
expands to nothing. -/
theorem include_guard_idempotent
    (fs : String → Option (List Directive)) (fuel n : Nat)
    (out defs' : List String)
    (hfs : fs hdrPath = some uCfgAppPlatformSpecificH)
    (h1 : ppRun fs fuel [] (tuIncludes 1) = Except.ok (out, defs')) :
    ppRun fs fuel [] (tuIncludes (n+1)) = Except.ok (out, defs') := by
  rw [tuIncludes, List.replicate_one] at h1
  cases fuel with
  | zero =>
    rw [ppRun_cons_include_fuel0 fs [] hdrPath [] uCfgAppPlatformSpecificH hfs] at h1
    exact Except.noConfusion h1
  | succ f =>
    cases hc : ppRun fs f [] uCfgAppPlatformSpecificH with
    | error e =>
      rw [ppRun_cons_include_err fs f [] hdrPath [] uCfgAppPlatformSpecificH e hfs hc] at h1
      exact Except.noConfusion h1
    | ok p =>
      obtain ⟨o₁, d₁⟩ := p
      have h3 := ppRun_cons_include_ok fs f [] hdrPath [] uCfgAppPlatformSpecificH
        o₁ d₁ [] d₁ hfs hc (ppRun_nil fs (f+1) d₁)
      rw [h3] at h1
      simp only [List.append_nil, Except.ok.injEq, Prod.mk.injEq] at h1
      obtain ⟨ho, hd⟩ := h1
      have hguard : guardSym ∈ d₁ := run_ok_guard fs f [] o₁ d₁ hc
      rw [tuIncludes, List.replicate_succ]
      have h4 : ppRun fs (f+1) d₁ (List.replicate n (Directive.includeD hdrPath)) =
          Except.ok ([], d₁) := skipAll fs hfs d₁ hguard n f
      have h5 := ppRun_cons_include_ok fs f [] hdrPath
        (List.replicate n (Directive.includeD hdrPath)) uCfgAppPlatformSpecificH
        o₁ d₁ [] d₁ hfs hc h4
      rw [h5, List.append_nil, ho, hd]

/-- Witness for C1 at a concrete input: in the standard environment the
header included twice emits its content once. -/
theorem include_guard_idempotent_witness :
    ppRun stdFs 2 [] (tuIncludes 2) = Except.ok ([uRunnerText], [guardSym]) :=
  include_guard_idempotent stdFs 2 1 [uRunnerText] [guardSym] rfl rfl

/-- C2.  Compilation succeeds if and only if `u_runner.h` is resolvable:
for every include-path environment whose resolution of `u_runner.h` (if
any) is the modelled runner header, preprocessing the header from a
state in which its guard is not yet defined succeeds exactly when the
environment resolves `u_runner.h`; a missing `u_runner.h` is the only
failure mode.  (`u_runner.h` itself is not among the supplied sources
and is modelled from the spec as `uRunnerH`.) -/
theorem compiles_iff_runner_resolvable
    (fs : String → Option (List Directive)) (fuel : Nat) (defs : List String)
    (hg : guardSym ∉ defs)
    (hmod : ∀ r, fs uRunnerName = some r → r = uRunnerH) :
    ppOk (ppRun fs (fuel+1) defs uCfgAppPlatformSpecificH) =
      (fs uRunnerName).isSome := by
  cases hur : fs uRunnerName with
  | none =>
    rw [fresh_missing fs (fuel+1) defs hg hur]
    rfl
  | some r =>
    have hr := hmod r hur
    subst hr
    have htext : ppRun fs fuel (guardSym :: defs) uRunnerH =
        Except.ok ([uRunnerText], guardSym :: defs) := by
      simp only [uRunnerH]
      rw [ppRun_cons_text, ppRun_nil]
    rw [fresh_ok fs fuel defs uRunnerH [uRunnerText] (guardSym :: defs) hg hur htext]
    rfl

/-- Witness for C2 at a concrete input: in the standard environment the
header preprocesses successfully and `u_runner.h` is resolvable. -/
theorem compiles_iff_runner_resolvable_witness :
    ppOk (ppRun stdFs 1 [] uCfgAppPlatformSpecificH) = (stdFs uRunnerName).isSome :=
  compiles_iff_runner_resolvable stdFs 0 [] (List.not_mem_nil guardSym)
    (fun r h => by
      rw [show stdFs uRunnerName = some uRunnerH from rfl] at h
      exact (Option.some.inj h).symm)

/-- C3.  Availability of `u_runner.h`: in any environment, from any
state in which the guard is not yet defined, if `u_runner.h` resolves to
`r` and preprocessing `r` emits `outR`, then preprocessing the header
emits exactly `outR` — the output the header contributes to the
translation unit is precisely the preprocessed contents of
`u_runner.h`. -/
theorem runner_content_available
    (fs : String → Option (List Directive)) (fuel : Nat)
    (defs : List String) (r : List Directive) (outR defsR : List String)
    (hg : guardSym ∉ defs) (hur : fs uRunnerName = some r)
    (hr : ppRun fs fuel (guardSym :: defs) r = Except.ok (outR, defsR)) :
    ppRun fs (fuel+1) defs uCfgAppPlatformSpecificH = Except.ok (outR, defsR) :=
  fresh_ok fs fuel defs r outR defsR hg hur hr

/-- Witness for C3 at a concrete input. -/
theorem runner_content_available_witness :
    ppRun stdFs 1 [] uCfgAppPlatformSpecificH =
      Except.ok ([uRunnerText], [guardSym]) :=
  runner_content_available stdFs 0 [] uRunnerH [uRunnerText] [guardSym]
    (List.not_mem_nil guardSym) rfl rfl

/-- C4.  Frame/no-effect property: with `u_runner.h` modelled as the
opaque `uRunnerH` (it is not among the supplied sources), a fresh
successful preprocessing of the header emits exactly the runner
header's text and changes the macro state exactly by adding the guard
symbol: the header introduces no output and no macro definitions of its
own beyond the guard. -/
theorem frame_guard_define_only
    (fs : String → Option (List Directive)) (fuel : Nat)
    (defs out defs' : List String)
    (hg : guardSym ∉ defs)
    (hur : fs uRunnerName = some uRunnerH)
    (h : ppRun fs (fuel+1) defs uCfgAppPlatformSpecificH = Except.ok (out, defs')) :
    out = [uRunnerText] ∧ defs' = guardSym :: defs := by
  have htext : ppRun fs fuel (guardSym :: defs) uRunnerH =
      Except.ok ([uRunnerText], guardSym :: defs) := by
    simp only [uRunnerH]
    rw [ppRun_cons_text, ppRun_nil]
  rw [fresh_ok fs fuel defs uRunnerH [uRunnerText] (guardSym :: defs) hg hur htext] at h
  simp only [Except.ok.injEq, Prod.mk.injEq] at h
  exact ⟨h.1.symm, h.2.symm⟩

/-- Witness for C4 at a concrete input. -/
theorem frame_guard_define_only_witness :
    [uRunnerText] = [uRunnerText] ∧ [guardSym] = guardSym :: ([] : List String) :=
  frame_guard_define_only stdFs 0 [] [uRunnerText] [guardSym]
    (List.not_mem_nil guardSym) rfl rfl

/-- C5.  Interface identity: the header is exposed on the include path
under `port/platform/nordic/nrf53/cfg/u_cfg_app_platform_specific.h`,
and the only guard symbol its `ifndef` tests and the only macro its
`define` defines is exactly `_U_CFG_APP_PLATFORM_SPECIFIC_H_`. -/
theorem interface_identity :
    hdrPath = "port/platform/nordic/nrf53/cfg/u_cfg_app_platform_specific.h"
    ∧ stdFs hdrPath = some uCfgAppPlatformSpecificH
    ∧ testedGuards uCfgAppPlatformSpecificH = ["_U_CFG_APP_PLATFORM_SPECIFIC_H_"]
    ∧ definedSyms uCfgAppPlatformSpecificH = ["_U_CFG_APP_PLATFORM_SPECIFIC_H_"] :=
  ⟨rfl, rfl, rfl, rfl⟩

/-- C6.  Termination under circular inclusion: with the guard already
defined, re-entrant processing of the header is a no-op for every
include-depth budget, even zero, so no nested include is ever attempted;
consequently, in an environment where `u_runner.h` includes the header
right back, preprocessing a unit that includes the header still
succeeds, with the same result for every budget of at least three —
the recursion is cut off by the guard rather than running unboundedly. -/
theorem circular_inclusion_terminates :
    (∀ fuel : Nat,
      ppRun fsCircular fuel [guardSym] uCfgAppPlatformSpecificH =
        Except.ok ([], [guardSym]))
    ∧ (∀ k : Nat,
      ppRun fsCircular (k+3) [] (tuIncludes 1) =
        Except.ok ([uRunnerText], [guardSym])) := by
  constructor
  · intro fuel
    exact guarded_noop fsCircular fuel [guardSym] (List.mem_cons_self guardSym [])
  · intro k
    have hfsh : fsCircular hdrPath = some uCfgAppPlatformSpecificH := rfl
    have hfsr : fsCircular uRunnerName = some uRunnerCircular := rfl
    have hinner := guarded_noop fsCircular k [guardSym] (List.mem_cons_self guardSym [])
    have htext : ppRun fsCircular (k+1) [guardSym] [Directive.textD uRunnerText] =
        Except.ok ([uRunnerText], [guardSym]) := by
      rw [ppRun_cons_text, ppRun_nil]
    have hrun : ppRun fsCircular (k+1) [guardSym] uRunnerCircular =
        Except.ok ([] ++ [uRunnerText], [guardSym]) := by
      simp only [uRunnerCircular]
      exact ppRun_cons_include_ok fsCircular k [guardSym] hdrPath
        [Directive.textD uRunnerText] uCfgAppPlatformSpecificH
        [] [guardSym] [uRunnerText] [guardSym] hfsh hinner htext
    rw [List.nil_append] at hrun
    have hhdr : ppRun fsCircular (k+2) [] uCfgAppPlatformSpecificH =
        Except.ok ([uRunnerText], [guardSym]) :=
      fresh_ok fsCircular (k+1) [] uRunnerCircular [uRunnerText] [guardSym]
        (List.not_mem_nil guardSym) hfsr hrun
    rw [tuIncludes, List.replicate_one]
    have hfin := ppRun_cons_include_ok fsCircular (k+2) [] hdrPath []
      uCfgAppPlatformSpecificH [uRunnerText] [guardSym] [] [guardSym]
      hfsh hhdr (ppRun_nil fsCircular (k+3) [guardSym])
    rw [List.append_nil] at hfin
    exact hfin

/-- C7.  Guard persistence invariant: a successful preprocessing of the
header never removes any defined macro — in particular it never
undefines its guard — and always leaves the guard symbol defined, so
"guard defined implies header content already emitted" is preserved for
the rest of the translation unit. -/
theorem guard_persistence
    (fs : String → Option (List Directive)) (fuel : Nat)
    (defs out defs' : List String)
    (h : ppRun fs fuel defs uCfgAppPlatformSpecificH = Except.ok (out, defs')) :
    (∀ m, m ∈ defs → m ∈ defs') ∧ guardSym ∈ defs' :=
  ⟨ppRun_mono fs fuel uCfgAppPlatformSpecificH defs out defs' h,
   run_ok_guard fs fuel defs out defs' h⟩

/-- Witness for C7 at a concrete input. -/
theorem guard_persistence_witness :
    (∀ m, m ∈ ([] : List String) → m ∈ [guardSym]) ∧ guardSym ∈ [guardSym] :=
  guard_persistence stdFs 1 [] [uRunnerText] [guardSym] rfl

/-- C8.  Deterministic expansion: two preprocessing runs of the header
from the same prior macro state, in environments that resolve
`u_runner.h` to the same contents and process those contents to the
same result, produce identical results — the header's expansion is a
function of the macro state and the resolution of `u_runner.h` only. -/
theorem deterministic_expansion
    (fs₁ fs₂ : String → Option (List Directive)) (f₁ f₂ : Nat)
    (defs : List String) (r : List Directive)
    (h₁ : fs₁ uRunnerName = some r) (h₂ : fs₂ uRunnerName = some r)
    (hr : ppRun fs₁ f₁ (guardSym :: defs) r = ppRun fs₂ f₂ (guardSym :: defs) r) :
    ppRun fs₁ (f₁+1) defs uCfgAppPlatformSpecificH =
      ppRun fs₂ (f₂+1) defs uCfgAppPlatformSpecificH := by
  by_cases hg : guardSym ∈ defs
  · rw [guarded_noop fs₁ (f₁+1) defs hg, guarded_noop fs₂ (f₂+1) defs hg]
  · cases hres : ppRun fs₁ f₁ (guardSym :: defs) r with
    | error e =>
      rw [fresh_err fs₁ f₁ defs r e hg h₁ hres,
        fresh_err fs₂ f₂ defs r e hg h₂ (hr.symm.trans hres)]
    | ok p =>
      obtain ⟨o, d⟩ := p
      rw [fresh_ok fs₁ f₁ defs r o d hg h₁ hres,
        fresh_ok fs₂ f₂ defs r o d hg h₂ (hr.symm.trans hres)]

/-- Witness for C8 at a concrete input: the standard environment with
two different include-depth budgets yields the same expansion. -/
theorem deterministic_expansion_witness :
    ppRun stdFs 1 [] uCfgAppPlatformSpecificH =
      ppRun stdFs 6 [] uCfgAppPlatformSpecificH :=
  deterministic_expansion stdFs stdFs 0 5 [] uRunnerH rfl rfl rfl
